import Mathlib

/-!
Verification of the qibo term-algebra core (`qibo/core/terms.py`).

The three classes `HamiltonianTerm`, `SymbolicTerm` and `TermGroup` are
shallowly embedded.  A dense `2^k × 2^k` operator is represented as a
tensor with one binary row leg and one binary column leg per qubit slot:
a function taking a row-bit assignment and a column-bit assignment to a
ring element.  Only the first `k` legs of a `k`-qubit term's matrix are
meaningful; `readsOnly` states that shape invariant.  With this
representation `np.kron` appends legs, `np.reshape` between the flat
`2^k × 2^k` form and the rank-`2k` tensor form is the identity, and
`np.transpose` by an axis list becomes re-indexing of the legs.
-/

/-- Entry function of a square matrix on `k` qubits: row bits, column bits. -/
def QMatrix (R : Type) : Type := (ℕ → Bool) → (ℕ → Bool) → R

/-- A one-qubit (`2 × 2`) matrix: row bit, column bit. -/
def Mat2 (R : Type) : Type := Bool → Bool → R

/-- `M` only reads the first `m` row legs and the first `m` column legs:
the shape invariant of an actual `2^m × 2^m` array. -/
def readsOnly {R : Type} (m : ℕ) (M : QMatrix R) : Prop :=
  ∀ r c r' c' : ℕ → Bool,
    (∀ n, n < m → r n = r' n) → (∀ n, n < m → c n = c' n) → M r c = M r' c'

/-- Position of the first occurrence of `a` in a list (Python
`tuple.index`); returns the length when `a` is absent. -/
def listIdx (a : ℕ) : List ℕ → ℕ
  | [] => 0
  | x :: xs => if x = a then 0 else listIdx a xs + 1

/-- Drop the first `m` legs of a bit assignment. -/
def shiftLegs (m : ℕ) (f : ℕ → Bool) : ℕ → Bool := fun n => f (n + m)

/-- `np.kron A B` where `A` acts on the first `m` legs: `B`'s legs follow
`A`'s.  (In the flat row-major form this is exactly the Kronecker
product of a `2^m`-dimensional and a `2^j`-dimensional square matrix.) -/
def kron {R : Type} [CommRing R] (m : ℕ) (A B : QMatrix R) : QMatrix R :=
  fun r c => A r c * B (shiftLegs m r) (shiftLegs m c)

/-- `K.eye (2 ^ j)` as a `j`-leg tensor. -/
def eyeLegs {R : Type} [CommRing R] (j : ℕ) : QMatrix R :=
  fun r c => if ∀ n, n < j → r n = c n then 1 else 0

/-- `np.transpose` of the rank-`2k` reshaped operator by the axis list
`order ++ map (+k) order` (the row part of the axis list acts on the row
legs and its shifted copy acts identically on the column legs): leg `q`
of the operand is fed from leg `listIdx q order` of the result. -/
def transposeLegs {R : Type} (order : List ℕ) (M : QMatrix R) : QMatrix R :=
  fun r c => M (fun q => r (listIdx q order)) (fun q => c (listIdx q order))

/-- `qibo.core.terms.HamiltonianTerm`: a dense operator tagged with the
ordered tuple of qubits it acts on, plus the back reference to the
owning Hamiltonian (used only for coefficient lookup in
`TermGroup.to_term`). -/
structure HamiltonianTerm (R : Type) where
  target_qubits : List ℕ
  matrix : QMatrix R
  hamiltonian : Option ℕ := none

namespace HamiltonianTerm

variable {R : Type} [CommRing R]

/-- `len(term)` = number of target qubits. -/
def len (t : HamiltonianTerm R) : ℕ := t.target_qubits.length

/-- The `order` list built by the loop in `HamiltonianTerm.merge`:
for each qubit of `self` (scanned left to right), either its position
inside `term.target_qubits`, or the next unused index `i`
(`i` starts at `len(term)`). -/
def mergeOrderAux (otherQ : List ℕ) : List ℕ → ℕ → List ℕ
  | [], _ => []
  | q :: rest, i =>
    if q ∈ otherQ then listIdx q otherQ :: mergeOrderAux otherQ rest i
    else i :: mergeOrderAux otherQ rest (i + 1)

/-- `HamiltonianTerm.merge` (terms.py lines 35-54):
`matrix = kron(term.matrix, eye(2 ** (len(self) - len(term))))`,
reshape to `2 * len(self)` axes, transpose by `order ++ order + k`,
reshape back, and add to `self.matrix`; result keeps `self`'s qubits. -/
def merge (self term : HamiltonianTerm R) : HamiltonianTerm R :=
  let k := self.len
  let m := term.len
  let P : QMatrix R := kron m term.matrix (eyeLegs (k - m))
  let order : List ℕ := mergeOrderAux term.target_qubits self.target_qubits m
  let embedded : QMatrix R := transposeLegs order P
  { target_qubits := self.target_qubits
    matrix := fun r c => self.matrix r c + embedded r c
    hamiltonian := none }

/-- `HamiltonianTerm.__mul__` / `__rmul__`: a fresh term with the matrix
scaled by `x` and the same target qubits (`hamiltonian` is reset by the
fresh `__init__`). -/
def mul (self : HamiltonianTerm R) (x : R) : HamiltonianTerm R :=
  { target_qubits := self.target_qubits
    matrix := fun r c => x * self.matrix r c
    hamiltonian := none }

end HamiltonianTerm

/-- The matrix embedding described by the spec for `merge`: `other`'s
operator placed on the positions its qubits occupy inside
`self.target_qubits`, tensored with the identity on the qubits of `self`
not covered by `other`. -/
def specEmbed {R : Type} [CommRing R] (selfQ otherQ : List ℕ) (B : QMatrix R) : QMatrix R :=
  fun r c =>
    B (fun s => r (listIdx (otherQ.getD s 0) selfQ))
      (fun s => c (listIdx (otherQ.getD s 0) selfQ)) *
    (if ∀ p, p < selfQ.length → (selfQ.getD p 0 ∈ otherQ ∨ r p = c p) then 1 else 0)

/-- Pauli Z as a concrete `2 × 2` integer matrix. -/
def zMat2 : Mat2 ℤ := fun b b' => if b = b' then (if b then -1 else 1) else 0

/-- Pauli X as a concrete `2 × 2` integer matrix. -/
def xMat2Z : Mat2 ℤ := fun b b' => if b = b' then 0 else 1

/-- `Z ⊗ Z` on two qubit legs. -/
def zzMat : QMatrix ℤ := fun r c => zMat2 (r 0) (c 0) * zMat2 (r 1) (c 1)

/-- `X` on the first qubit leg. -/
def xMatQ : QMatrix ℤ := fun r c => xMat2Z (r 0) (c 0)

/-- `X ⊗ I` on two qubit legs. -/
def xiMat : QMatrix ℤ := fun r c => xMat2Z (r 0) (c 0) * (if r 1 = c 1 then 1 else 0)

/-- Concrete term `A` over qubits `(0, 1)` with matrix `Z ⊗ Z`. -/
def termA : HamiltonianTerm ℤ := { target_qubits := [0, 1], matrix := zzMat }

/-- Concrete term `B` over qubit `(0,)` with matrix `X`. -/
def termB : HamiltonianTerm ℤ := { target_qubits := [0], matrix := xMatQ }

/-!  ### SymbolicTerm

`SymbolicTerm` (terms.py lines 72-182) is specialised to the complex
numbers: the Python constructor coerces the coefficient with
`complex(...)` (the identity on `ℂ`).  The sympy product expression fed
to `from_factors` is modelled, per the spec's external-interface
description, as the ordered list of its factors, each factor being
either a qubit-tagged operator symbol (carrying a `2 × 2` matrix)
raised to an integer power, a scalar-valued symbol, or the literal
imaginary unit.  The `symbol_map` substitution for non-qibo symbols is
treated as already applied. -/

/-- A sympy symbol as seen by `from_factors`: `factor.matrix` is either a
genuine tensor (`K.qnp.tensor_types`) with a target qubit, or a plain
scalar. -/
inductive QSymbol where
  | tensorSym (target_qubit : ℕ) (matrix : Mat2 ℂ)
  | scalarSym (matrix : ℂ)

/-- One ordered factor of the sympy product: a symbol raised to an
integer power (`pow = 1` for a bare symbol), or the literal `I`. -/
inductive Factor where
  | sym (s : QSymbol) (pow : ℕ)
  | imagI

/-- The `factors` argument of `from_factors`: the multiplicative
identity `1`, or a product expression given by its ordered factors. -/
inductive FactorsArg where
  | one
  | expr (fs : List Factor)

/-- Left-to-right matrix product of `2 × 2` complex matrices. -/
def mat2Mul (a b : Mat2 ℂ) : Mat2 ℂ :=
  fun r c => a r false * b false c + a r true * b true c

/-- `matrices_product` from `SymbolicTerm.matrix`: the first matrix,
multiplied on the right by each following one.  (Python indexes
`matrices[0]`, so the empty list never occurs; `0` is returned as
junk in that case.) -/
def matricesProduct : List (Mat2 ℂ) → Mat2 ℂ
  | [] => fun _ _ => 0
  | m :: rest => rest.foldl mat2Mul m

/-- Insertion of one key into a sorted key list (helper for Python's
`sorted`). -/
def insertSorted (q : ℕ) : List ℕ → List ℕ
  | [] => [q]
  | x :: xs => if q ≤ x then q :: x :: xs else x :: insertSorted q xs

/-- Python `sorted` on a list of numeric keys (ascending). -/
def sortKeys (l : List ℕ) : List ℕ := l.foldr insertSorted []

/-- `qibo.core.terms.SymbolicTerm`: coefficient, stored tensor-symbol
factors (each a qubit with its `2 × 2` matrix, in textual order), the
per-qubit matrix map, the Hamiltonian back reference and the two lazy
caches `_matrix` / `_gate`. -/
structure SymbolicTerm where
  coefficient : ℂ
  factors : List (ℕ × Mat2 ℂ) := []
  matrix_map : List (ℕ × List (Mat2 ℂ)) := []
  hamiltonian : Option ℕ := none
  _matrix : Option (QMatrix ℂ) := none
  _gate : Option (QMatrix ℂ × List ℕ) := none

namespace SymbolicTerm

/-- `tuple(sorted(self.matrix_map.keys()))`. -/
def target_qubits (t : SymbolicTerm) : List ℕ :=
  sortKeys (t.matrix_map.map Prod.fst)

/-- Python `dict.get` on the matrix map (`[]` plays the role of the
`None` returned for a missing key, which Python would crash on). -/
def lookupMM (mm : List (ℕ × List (Mat2 ℂ))) (q : ℕ) : List (Mat2 ℂ) :=
  match mm.find? (fun e => e.1 == q) with
  | some e => e.2
  | none => []

/-- `_matrix_map[q].extend(...)` when `q` is already a key, otherwise a
fresh entry `_matrix_map[q] = ...`. -/
def mmExtend (mm : List (ℕ × List (Mat2 ℂ))) (q : ℕ) (ms : List (Mat2 ℂ)) :
    List (ℕ × List (Mat2 ℂ)) :=
  if (mm.map Prod.fst).contains q then
    mm.map (fun e => if e.1 = q then (e.1, e.2 ++ ms) else e)
  else mm ++ [(q, ms)]

/-- The parsing loop of `from_factors` over the ordered factors,
threading the coefficient, the `_factors` list and the `_matrix_map`. -/
def fromFactorsLoop :
    List Factor → ℂ → List (ℕ × Mat2 ℂ) → List (ℕ × List (Mat2 ℂ)) →
      ℂ × List (ℕ × Mat2 ℂ) × List (ℕ × List (Mat2 ℂ))
  | [], c, fs, mm => (c, fs, mm)
  | .sym (.tensorSym q m) pw :: rest, c, fs, mm =>
      fromFactorsLoop rest c (fs ++ List.replicate pw (q, m))
        (mmExtend mm q (List.replicate pw m))
  | .sym (.scalarSym v) _ :: rest, c, fs, mm =>
      fromFactorsLoop rest (c * v) fs mm
  | .imagI :: rest, c, fs, mm =>
      fromFactorsLoop rest (c * Complex.I) fs mm

/-- `SymbolicTerm.from_factors` (terms.py lines 106-142).  `factors == 1`
short-circuits to a bare coefficient term; otherwise the ordered
factors are parsed one by one. -/
def from_factors (coefficient : ℂ) (factors : FactorsArg) : SymbolicTerm :=
  match factors with
  | .one => { coefficient := coefficient }
  | .expr fs =>
      let res := fromFactorsLoop fs coefficient [] []
      { coefficient := res.1, factors := res.2.1, matrix_map := res.2.2 }

/-- A scalar as a zero-leg tensor (`np.kron` treats it as `1 × 1`). -/
def scalarMat (x : ℂ) : QMatrix ℂ := fun _ _ => x

/-- `np.kron acc B` where `acc` owns the first `i` legs and the one-leg
matrix `B` is appended as leg `i`. -/
def kron1 (i : ℕ) (A : QMatrix ℂ) (B : Mat2 ℂ) : QMatrix ℂ :=
  fun r c => A r c * B (r i) (c i)

/-- The loop of the `matrix` property: starting from the coefficient,
kron the per-qubit product for each target qubit in ascending order. -/
def symMatrixGo (mm : List (ℕ × List (Mat2 ℂ))) :
    ℕ → List ℕ → QMatrix ℂ → QMatrix ℂ
  | _, [], acc => acc
  | i, q :: qs, acc =>
      symMatrixGo mm (i + 1) qs (kron1 i acc (matricesProduct (lookupMM mm q)))

/-- The value computed (and cached) by the `matrix` property on a cache
miss. -/
def computeMatrix (t : SymbolicTerm) : QMatrix ℂ :=
  symMatrixGo t.matrix_map 0 t.target_qubits (scalarMat t.coefficient)

/-- The `matrix` property (terms.py lines 144-166): the cached value if
present, else the computed one. -/
def matrix (t : SymbolicTerm) : QMatrix ℂ :=
  match t._matrix with
  | some m => m
  | none => t.computeMatrix

/-- The state of the term after its `matrix` property has been read once
(the property stores the computed value in `self._matrix`). -/
def materializeMatrix (t : SymbolicTerm) : SymbolicTerm :=
  { t with _matrix := some t.matrix }

/-- `SymbolicTerm.__mul__` (terms.py lines 168-173): rebuild via
`__init__` (which resets `hamiltonian` and the caches), copy both cache
fields over unchanged, then multiply the coefficient. -/
def mul (self : SymbolicTerm) (x : ℂ) : SymbolicTerm :=
  { coefficient := self.coefficient * x
    factors := self.factors
    matrix_map := self.matrix_map
    hamiltonian := none
    _matrix := self._matrix
    _gate := self._gate }

end SymbolicTerm

/-- The `2 × 2` identity matrix. -/
def mat2Id : Mat2 ℂ := fun b b' => if b = b' then 1 else 0

/-- The spec's "ordered left-to-right matrix product" of the matrices
recorded for one qubit (an identity-seeded left fold). -/
def specOrderedProd (ms : List (Mat2 ℂ)) : Mat2 ℂ := ms.foldl mat2Mul mat2Id

/-- Entry of a Kronecker chain of one-leg matrices laid out from leg `i`
onwards. -/
def chainEntry : ℕ → List (Mat2 ℂ) → (ℕ → Bool) → (ℕ → Bool) → ℂ
  | _, [], _, _ => 1
  | i, m :: ms, r, c => m (r i) (c i) * chainEntry (i + 1) ms r c

/-- The matrix the spec prescribes for a symbolic term: the coefficient
as leftmost factor of the Kronecker chain of the per-qubit ordered
products, qubits in ascending order. -/
def specSymbolicMatrix (t : SymbolicTerm) : QMatrix ℂ :=
  fun r c =>
    t.coefficient *
      chainEntry 0
        (t.target_qubits.map (fun q => specOrderedProd (SymbolicTerm.lookupMM t.matrix_map q)))
        r c

/-- Pauli X as a concrete `2 × 2` complex matrix. -/
def xMat2C : Mat2 ℂ := fun b b' => if b = b' then 0 else 1

/-!  ### TermGroup -/

/-- `qibo.core.terms.TermGroup`: the ordered member list (the class
subclasses `list`), the union-of-supports qubit set (modelled as a list
observed only through membership) and the lazy cache of the merged
term. -/
structure TermGroup (R : Type) where
  members : List (HamiltonianTerm R)
  target_qubits : List ℕ
  _term : Option (HamiltonianTerm R)

namespace TermGroup

variable {R : Type} [CommRing R]

/-- `TermGroup.__init__`: a singleton group seeded by one term. -/
def ofTerm (t : HamiltonianTerm R) : TermGroup R :=
  { members := [t], target_qubits := t.target_qubits, _term := none }

/-- `TermGroup.append`: push the term, extend the qubit set by its
support, invalidate the cached merged term. -/
def append (g : TermGroup R) (t : HamiltonianTerm R) : TermGroup R :=
  { members := g.members ++ [t]
    target_qubits := g.target_qubits ∪ t.target_qubits
    _term := none }

/-- `TermGroup.can_append`: the candidate's qubit support is contained in
the group's current support. -/
def can_append (g : TermGroup R) (t : HamiltonianTerm R) : Bool :=
  t.target_qubits.all (fun q => q ∈ g.target_qubits)

/-- One step of the clustering scan in `from_terms`: append the term to
the first group that accepts it, else seed a new singleton group at the
end. -/
def insertTerm : List (TermGroup R) → HamiltonianTerm R → List (TermGroup R)
  | [], t => [ofTerm t]
  | g :: gs, t => if g.can_append t then g.append t :: gs else g :: insertTerm gs t

/-- The distinct arities present among the terms, largest first
(`sorted(orders.keys())[::-1]`). -/
def sortedAritiesDesc (terms : List (HamiltonianTerm R)) : List ℕ :=
  (sortKeys ((terms.map HamiltonianTerm.len).dedup)).reverse

/-- The order in which `from_terms` visits the terms: arity buckets from
largest to smallest, each bucket keeping the original relative order
(Python dict buckets accumulate in input order). -/
def processSeq (terms : List (HamiltonianTerm R)) : List (HamiltonianTerm R) :=
  (sortedAritiesDesc terms).flatMap (fun a => terms.filter (fun t => t.len == a))

/-- `TermGroup.from_terms` (terms.py lines 200-220): greedy first-fit
clustering over the arity-ordered term sequence. -/
def from_terms (terms : List (HamiltonianTerm R)) : List (TermGroup R) :=
  (processSeq terms).foldl insertTerm []

/-- `term * c if c is not None else term` for the coefficient override
map of `to_term` (a Python dict keyed by `term.hamiltonian`, modelled
as its lookup function). -/
def applyCoeff (coefficients : Option ℕ → Option R) (t : HamiltonianTerm R) :
    HamiltonianTerm R :=
  match coefficients t.hamiltonian with
  | some c => t.mul c
  | none => t

/-- `TermGroup.to_term` (terms.py lines 228-234): fold the members
left-to-right through `merge`, starting from member 0, first rescaling
each member whose Hamiltonian has an override.  (Python indexes
`self[0]`, so the empty member list never occurs; a zero term is
returned as junk in that case.) -/
def to_term (g : TermGroup R) (coefficients : Option ℕ → Option R) :
    HamiltonianTerm R :=
  match g.members with
  | [] => { target_qubits := [], matrix := fun _ _ => 0 }
  | s :: rest =>
      rest.foldl (fun merged t => merged.merge (applyCoeff coefficients t))
        (applyCoeff coefficients s)

/-- The `term` property: the cached merged term, recomputed by
`to_term()` (empty override map) on a cache miss. -/
def term (g : TermGroup R) : HamiltonianTerm R :=
  match g._term with
  | some t => t
  | none => g.to_term (fun _ => none)

/-- The structural invariant the clustering establishes for every group:
the members start with the seed, the group's qubit set is (as a set)
the seed's support, and every later member's support is contained in
the seed's support. -/
def GroupWF (g : TermGroup R) : Prop :=
  ∃ s rest, g.members = s :: rest ∧
    (∀ q, q ∈ g.target_qubits ↔ q ∈ s.target_qubits) ∧
    (∀ t ∈ rest, ∀ q ∈ t.target_qubits, q ∈ s.target_qubits)

end TermGroup

/-!  ### The argument type check of `HamiltonianTerm.__init__` -/

/-- The possible shapes of the `matrix` argument of
`HamiltonianTerm.__init__`: Python `None`, a numeric scalar
(`K.qnp.numeric_types`), a backend tensor (`K.qnp.tensor_types`), or
any other object. -/
inductive MatrixArg (R : Type) where
  | noneArg
  | numeric (v : R)
  | tensor (m : QMatrix R)
  | other

/-- Is the argument a numeric scalar? -/
def MatrixArg.isNumericScalar {R : Type} : MatrixArg R → Bool
  | .numeric _ => true
  | _ => false

/-- Is the argument a backend tensor? -/
def MatrixArg.isTensorType {R : Type} : MatrixArg R → Bool
  | .tensor _ => true
  | _ => false

/-- The condition guarding the `raise_error(TypeError, ...)` in
`HamiltonianTerm.__init__` (terms.py lines 12-15):
`matrix is None or isinstance(matrix, numeric_types) or
isinstance(matrix, tensor_types)`. -/
def matrixArgAccepted {R : Type} : MatrixArg R → Bool
  | .noneArg => true
  | .numeric _ => true
  | .tensor _ => true
  | .other => false

/-- `HamiltonianTerm.__init__` as a fallible constructor: stores the
qubit tuple and the matrix argument, or raises `TypeError`. -/
def hamiltonianTermInit {R : Type} (matrix : MatrixArg R) (q : List ℕ) :
    Except String (List ℕ × MatrixArg R) :=
  if matrixArgAccepted matrix then Except.ok (q, matrix)
  else Except.error "Invalid type of symbol matrix."

/-- The symbolic term of the spec's concrete example `2 * X(0) * X(1)`. -/
def symT3 : SymbolicTerm :=
  SymbolicTerm.from_factors 2
    (FactorsArg.expr [Factor.sym (QSymbol.tensorSym 0 xMat2C) 1,
                      Factor.sym (QSymbol.tensorSym 1 xMat2C) 1])

/-- `X(0) * X(0)` given as two separate factors. -/
def symT5a : SymbolicTerm :=
  SymbolicTerm.from_factors 1
    (FactorsArg.expr [Factor.sym (QSymbol.tensorSym 0 xMat2C) 1,
                      Factor.sym (QSymbol.tensorSym 0 xMat2C) 1])

/-- `X(0) ** 2` given as a single squared factor. -/
def symT5b : SymbolicTerm :=
  SymbolicTerm.from_factors 1
    (FactorsArg.expr [Factor.sym (QSymbol.tensorSym 0 xMat2C) 2])

/-- A symbolic term `X(0)` used to exhibit the stale-cache behaviour of
`SymbolicTerm.__mul__`. -/
def symT4 : SymbolicTerm :=
  { coefficient := 1, factors := [(0, xMat2C)], matrix_map := [(0, [xMat2C])] }

/-!  ## Helper lemmas -/

theorem mat2Mul_id_left (m : Mat2 ℂ) : mat2Mul mat2Id m = m := by
  funext b c
  cases b <;> simp [mat2Mul, mat2Id]

theorem mat2Mul_xx : ∀ b b' : Bool, mat2Mul xMat2C xMat2C b b' = mat2Id b b' := by
  intro b b'
  cases b <;> cases b' <;> simp [mat2Mul, xMat2C, mat2Id]

theorem specOrderedProd_eq_matricesProduct (ms : List (Mat2 ℂ)) (h : ms ≠ []) :
    specOrderedProd ms = matricesProduct ms := by
  cases ms with
  | nil => exact absurd rfl h
  | cons m rest => simp [specOrderedProd, matricesProduct, mat2Mul_id_left]

theorem symMatrixGo_eq_chainEntry (mm : List (ℕ × List (Mat2 ℂ))) (qs : List ℕ) :
    ∀ (i : ℕ) (acc : QMatrix ℂ) (r c : ℕ → Bool),
      SymbolicTerm.symMatrixGo mm i qs acc r c =
        acc r c *
          chainEntry i (qs.map (fun q => matricesProduct (SymbolicTerm.lookupMM mm q))) r c := by
  induction qs with
  | nil => intro i acc r c; simp [SymbolicTerm.symMatrixGo, chainEntry]
  | cons q qs ih =>
      intro i acc r c
      simp only [SymbolicTerm.symMatrixGo, List.map_cons, chainEntry]
      rw [ih]
      simp only [SymbolicTerm.kron1]
      ring

theorem chainEntry_map_congr (f g : ℕ → Mat2 ℂ) :
    ∀ (qs : List ℕ) (i : ℕ) (r c : ℕ → Bool), (∀ q ∈ qs, f q = g q) →
      chainEntry i (qs.map f) r c = chainEntry i (qs.map g) r c := by
  intro qs
  induction qs with
  | nil => intro i r c _; rfl
  | cons q qs ih =>
      intro i r c h
      simp only [List.map_cons, chainEntry]
      rw [h q (List.mem_cons_self q qs), ih (i + 1) r c (fun x hx => h x (List.mem_cons_of_mem q hx))]

theorem insertSorted_perm (q : ℕ) (l : List ℕ) : List.Perm (insertSorted q l) (q :: l) := by
  induction l with
  | nil => exact List.Perm.refl _
  | cons x xs ih =>
      by_cases h : q ≤ x
      · simp [insertSorted, h]
      · simp only [insertSorted, if_neg h]
        exact ((ih.cons x).trans (List.Perm.swap q x xs))

theorem sortKeys_perm (l : List ℕ) : List.Perm (sortKeys l) l := by
  induction l with
  | nil => exact List.Perm.refl _
  | cons x xs ih =>
      exact (insertSorted_perm x (sortKeys xs)).trans (ih.cons x)

theorem lookupMM_ne_nil (mm : List (ℕ × List (Mat2 ℂ))) (q : ℕ)
    (hne : ∀ p ∈ mm, p.2 ≠ []) (hq : q ∈ mm.map Prod.fst) :
    SymbolicTerm.lookupMM mm q ≠ [] := by
  induction mm with
  | nil => simp at hq
  | cons e mm ih =>
      by_cases h : e.1 = q
      · have : SymbolicTerm.lookupMM (e :: mm) q = e.2 := by
          simp [SymbolicTerm.lookupMM, List.find?, h]
        rw [this]
        exact hne e (List.mem_cons_self e mm)
      · have : SymbolicTerm.lookupMM (e :: mm) q = SymbolicTerm.lookupMM mm q := by
          have hb : (e.1 == q) = false := beq_eq_false_iff_ne.mpr h
          simp [SymbolicTerm.lookupMM, List.find?, hb]
        rw [this]
        refine ih (fun p hp => hne p (List.mem_cons_of_mem e hp)) ?_
        simp only [List.map_cons, List.mem_cons] at hq
        exact hq.resolve_left (fun hx => h hx.symm)

theorem listIdx_lt_length {a : ℕ} : ∀ {l : List ℕ}, a ∈ l → listIdx a l < l.length := by
  intro l
  induction l with
  | nil => intro h; exact absurd h (List.not_mem_nil a)
  | cons x xs ih =>
      intro h
      by_cases hx : x = a
      · simp [listIdx, hx]
      · rw [listIdx, if_neg hx]
        have : a ∈ xs := by
          rcases List.mem_cons.mp h with h' | h'
          · exact absurd h'.symm hx
          · exact h'
        exact Nat.succ_lt_succ (ih this)

theorem getD_listIdx {a : ℕ} : ∀ {l : List ℕ}, a ∈ l → l.getD (listIdx a l) 0 = a := by
  intro l
  induction l with
  | nil => intro h; exact absurd h (List.not_mem_nil a)
  | cons x xs ih =>
      intro h
      by_cases hx : x = a
      · simp [listIdx, hx]
      · rw [listIdx, if_neg hx, List.getD_cons_succ]
        refine ih ?_
        rcases List.mem_cons.mp h with h' | h'
        · exact absurd h'.symm hx
        · exact h'

theorem listIdx_getD_nodup : ∀ {l : List ℕ}, l.Nodup → ∀ {p : ℕ}, p < l.length →
    listIdx (l.getD p 0) l = p := by
  intro l
  induction l with
  | nil => intro _ p hp; simp at hp
  | cons x xs ih =>
      intro hnd p hp
      cases p with
      | zero => simp [listIdx]
      | succ p =>
          have hp' : p < xs.length := Nat.lt_of_succ_lt_succ hp
          rw [List.getD_cons_succ, listIdx]
          have hxmem : xs.getD p 0 ∈ xs := by
            rw [List.getD_eq_getElem xs 0 hp']
            exact List.getElem_mem hp'
          have hne : x ≠ xs.getD p 0 := fun h => (List.nodup_cons.mp hnd).1 (h ▸ hxmem)
          rw [if_neg hne, ih (List.nodup_cons.mp hnd).2 hp']

theorem listIdx_eq_of_firstOcc : ∀ {l : List ℕ} {p : ℕ}, p < l.length →
    (∀ p', p' < p → l.getD p' 0 ≠ l.getD p 0) → listIdx (l.getD p 0) l = p := by
  intro l
  induction l with
  | nil => intro p hp; simp at hp
  | cons x xs ih =>
      intro p hp hfirst
      cases p with
      | zero => simp [listIdx]
      | succ p =>
          have hp' : p < xs.length := Nat.lt_of_succ_lt_succ hp
          rw [List.getD_cons_succ, listIdx]
          have hne : x ≠ xs.getD p 0 := by
            have := hfirst 0 (Nat.succ_pos p)
            simpa using this
          rw [if_neg hne]
          rw [ih hp' (fun p' hp'' => by
            have := hfirst (p' + 1) (Nat.succ_lt_succ hp'')
            simpa using this)]

theorem mergeOrderAux_length (otherQ : List ℕ) :
    ∀ (l : List ℕ) (i : ℕ), (HamiltonianTerm.mergeOrderAux otherQ l i).length = l.length := by
  intro l
  induction l with
  | nil => intro i; rfl
  | cons q rest ih =>
      intro i
      by_cases h : q ∈ otherQ
      · simp [HamiltonianTerm.mergeOrderAux, h, ih]
      · simp [HamiltonianTerm.mergeOrderAux, h, ih]

theorem countP_take_succ (pr : ℕ → Bool) :
    ∀ (l : List ℕ) (p : ℕ), p < l.length →
      (l.take (p + 1)).countP pr =
        (l.take p).countP pr + (if pr (l.getD p 0) then 1 else 0) := by
  intro l
  induction l with
  | nil => intro p hp; simp at hp
  | cons x xs ih =>
      intro p hp
      cases p with
      | zero => simp [List.countP_cons]
      | succ p =>
          have hp' : p < xs.length := Nat.lt_of_succ_lt_succ hp
          show ((x :: xs.take (p + 1)).countP pr) = _
          rw [List.countP_cons, ih p hp']
          show _ = (x :: xs.take p).countP pr + _
          rw [List.countP_cons, List.getD_cons_succ]
          exact Nat.add_right_comm _ _ _

theorem countP_take_le (pr : ℕ → Bool) (l : List ℕ) {p p' : ℕ} (h : p ≤ p') :
    (l.take p).countP pr ≤ (l.take p').countP pr := by
  have heq : l.take p = (l.take p').take p := by
    rw [List.take_take, Nat.min_eq_left h]
  rw [heq]
  exact List.Sublist.countP_le pr (List.take_sublist p (l.take p'))

theorem mergeOrderAux_getD (otherQ : List ℕ) :
    ∀ (l : List ℕ) (i p : ℕ), p < l.length →
      (HamiltonianTerm.mergeOrderAux otherQ l i).getD p 0 =
        if l.getD p 0 ∈ otherQ then listIdx (l.getD p 0) otherQ
        else i + (l.take p).countP (fun q => !(decide (q ∈ otherQ))) := by
  intro l
  induction l with
  | nil => intro i p hp; simp at hp
  | cons q rest ih =>
      intro i p hp
      cases p with
      | zero =>
          by_cases h : q ∈ otherQ
          · simp [HamiltonianTerm.mergeOrderAux, h]
          · simp [HamiltonianTerm.mergeOrderAux, h]
      | succ p =>
          have hp' : p < rest.length := Nat.lt_of_succ_lt_succ hp
          by_cases h : q ∈ otherQ
          · rw [show HamiltonianTerm.mergeOrderAux otherQ (q :: rest) i =
                listIdx q otherQ :: HamiltonianTerm.mergeOrderAux otherQ rest i from by
                  rw [HamiltonianTerm.mergeOrderAux, if_pos h]]
            rw [List.getD_cons_succ, List.getD_cons_succ, ih i p hp']
            have htake : (q :: rest).take (p + 1) = q :: rest.take p := rfl
            rw [htake, List.countP_cons]
            have : (!(decide (q ∈ otherQ))) = false := by simp [h]
            rw [this]
            simp
          · rw [show HamiltonianTerm.mergeOrderAux otherQ (q :: rest) i =
                i :: HamiltonianTerm.mergeOrderAux otherQ rest (i + 1) from by
                  rw [HamiltonianTerm.mergeOrderAux, if_neg h]]
            rw [List.getD_cons_succ, List.getD_cons_succ, ih (i + 1) p hp']
            have htake : (q :: rest).take (p + 1) = q :: rest.take p := rfl
            rw [htake, List.countP_cons]
            have : (!(decide (q ∈ otherQ))) = true := by simp [h]
            rw [this]
            by_cases h2 : rest.getD p 0 ∈ otherQ
            · rw [if_pos h2, if_pos h2]
            · rw [if_neg h2, if_neg h2]
              simp only [eq_self_iff_true, if_true]
              omega

theorem countP_mem_eq (selfQ otherQ : List ℕ) (hsub : ∀ q ∈ otherQ, q ∈ selfQ)
    (hself : selfQ.Nodup) (hother : otherQ.Nodup) :
    selfQ.countP (fun q => decide (q ∈ otherQ)) = otherQ.length := by
  rw [List.countP_eq_length_filter]
  have h1 : List.Perm (selfQ.filter (fun q => decide (q ∈ otherQ))) otherQ := by
    refine List.Subperm.antisymm ?_ ?_
    · refine List.Nodup.subperm (hself.filter _) ?_
      intro q hq
      exact of_decide_eq_true (List.mem_filter.mp hq).2
    · refine List.Nodup.subperm hother ?_
      intro q hq
      exact List.mem_filter.mpr ⟨hsub q hq, decide_eq_true hq⟩
  exact h1.length_eq

theorem countP_nonmem_eq (selfQ otherQ : List ℕ) (hsub : ∀ q ∈ otherQ, q ∈ selfQ)
    (hself : selfQ.Nodup) (hother : otherQ.Nodup) :
    selfQ.countP (fun q => !(decide (q ∈ otherQ))) = selfQ.length - otherQ.length := by
  have h1 := List.length_eq_countP_add_countP (fun q => decide (q ∈ otherQ)) selfQ
  simp only [decide_not, decide_eq_true_eq] at h1
  have h2 := countP_mem_eq selfQ otherQ hsub hself hother
  omega

theorem mergeOrder_firstOcc (selfQ otherQ : List ℕ)
    (hself : selfQ.Nodup) (hother : otherQ.Nodup) :
    ∀ p p' : ℕ, p < selfQ.length → p' < p →
      (HamiltonianTerm.mergeOrderAux otherQ selfQ otherQ.length).getD p' 0 ≠
        (HamiltonianTerm.mergeOrderAux otherQ selfQ otherQ.length).getD p 0 := by
  intro p p' hp hp'
  have hp'k : p' < selfQ.length := Nat.lt_trans hp' hp
  rw [mergeOrderAux_getD otherQ selfQ otherQ.length p hp,
    mergeOrderAux_getD otherQ selfQ otherQ.length p' hp'k]
  by_cases h1 : selfQ.getD p' 0 ∈ otherQ <;> by_cases h2 : selfQ.getD p 0 ∈ otherQ
  · rw [if_pos h1, if_pos h2]
    intro heq
    have e1 : otherQ.getD (listIdx (selfQ.getD p' 0) otherQ) 0 = selfQ.getD p' 0 :=
      getD_listIdx h1
    have e2 : otherQ.getD (listIdx (selfQ.getD p 0) otherQ) 0 = selfQ.getD p 0 :=
      getD_listIdx h2
    have hvals : selfQ.getD p' 0 = selfQ.getD p 0 := by rw [← e1, ← e2, heq]
    have hpp : p' = p := by
      have i1 := listIdx_getD_nodup hself hp'k
      have i2 := listIdx_getD_nodup hself hp
      rw [← i1, ← i2, hvals]
    exact absurd hpp (Nat.ne_of_lt hp')
  · rw [if_pos h1, if_neg h2]
    have := listIdx_lt_length h1
    omega
  · rw [if_neg h1, if_pos h2]
    have := listIdx_lt_length h2
    omega
  · rw [if_neg h1, if_neg h2]
    have hstep : (selfQ.take (p' + 1)).countP (fun q => !(decide (q ∈ otherQ))) =
        (selfQ.take p').countP (fun q => !(decide (q ∈ otherQ))) + 1 := by
      rw [countP_take_succ _ selfQ p' hp'k]
      have hb : (!(decide (selfQ.getD p' 0 ∈ otherQ))) = true := by
        rw [decide_eq_false h1]
        rfl
      rw [hb]
      simp
    have hle : (selfQ.take (p' + 1)).countP (fun q => !(decide (q ∈ otherQ))) ≤
        (selfQ.take p).countP (fun q => !(decide (q ∈ otherQ))) :=
      countP_take_le _ selfQ hp'
    omega

theorem mergeOrder_listIdx_getD (selfQ otherQ : List ℕ)
    (hself : selfQ.Nodup) (hother : otherQ.Nodup) :
    ∀ p : ℕ, p < selfQ.length →
      listIdx ((HamiltonianTerm.mergeOrderAux otherQ selfQ otherQ.length).getD p 0)
        (HamiltonianTerm.mergeOrderAux otherQ selfQ otherQ.length) = p := by
  intro p hp
  refine listIdx_eq_of_firstOcc ?_ ?_
  · rw [mergeOrderAux_length]; exact hp
  · intro p' hp'
    exact mergeOrder_firstOcc selfQ otherQ hself hother p p' hp hp'

theorem mergeOrder_listIdx_small (selfQ otherQ : List ℕ)
    (hsub : ∀ q ∈ otherQ, q ∈ selfQ) (hself : selfQ.Nodup) (hother : otherQ.Nodup) :
    ∀ s : ℕ, s < otherQ.length →
      listIdx s (HamiltonianTerm.mergeOrderAux otherQ selfQ otherQ.length) =
        listIdx (otherQ.getD s 0) selfQ := by
  intro s hs
  have hxo : otherQ.getD s 0 ∈ otherQ := by
    rw [List.getD_eq_getElem otherQ 0 hs]
    exact List.getElem_mem hs
  have hxs : otherQ.getD s 0 ∈ selfQ := hsub _ hxo
  have hpk : listIdx (otherQ.getD s 0) selfQ < selfQ.length := listIdx_lt_length hxs
  have hgetD : selfQ.getD (listIdx (otherQ.getD s 0) selfQ) 0 = otherQ.getD s 0 :=
    getD_listIdx hxs
  have horder : (HamiltonianTerm.mergeOrderAux otherQ selfQ otherQ.length).getD
      (listIdx (otherQ.getD s 0) selfQ) 0 = s := by
    rw [mergeOrderAux_getD otherQ selfQ otherQ.length _ hpk, hgetD, if_pos hxo]
    exact listIdx_getD_nodup hother hs
  have hfin := mergeOrder_listIdx_getD selfQ otherQ hself hother
    (listIdx (otherQ.getD s 0) selfQ) hpk
  rw [horder] at hfin
  exact hfin

theorem mergeOrder_nonmem (selfQ otherQ : List ℕ)
    (hsub : ∀ q ∈ otherQ, q ∈ selfQ) (hself : selfQ.Nodup) (hother : otherQ.Nodup) :
    ∀ p : ℕ, p < selfQ.length → selfQ.getD p 0 ∉ otherQ →
      (HamiltonianTerm.mergeOrderAux otherQ selfQ otherQ.length).getD p 0 =
          otherQ.length + (selfQ.take p).countP (fun q => !(decide (q ∈ otherQ))) ∧
        (selfQ.take p).countP (fun q => !(decide (q ∈ otherQ))) <
          selfQ.length - otherQ.length ∧
        listIdx ((HamiltonianTerm.mergeOrderAux otherQ selfQ otherQ.length).getD p 0)
          (HamiltonianTerm.mergeOrderAux otherQ selfQ otherQ.length) = p := by
  intro p hp hnm
  refine ⟨?_, ?_, mergeOrder_listIdx_getD selfQ otherQ hself hother p hp⟩
  · rw [mergeOrderAux_getD otherQ selfQ otherQ.length p hp, if_neg hnm]
  · have hstep : (selfQ.take (p + 1)).countP (fun q => !(decide (q ∈ otherQ))) =
        (selfQ.take p).countP (fun q => !(decide (q ∈ otherQ))) + 1 := by
      rw [countP_take_succ _ selfQ p hp]
      have hb : (!(decide (selfQ.getD p 0 ∈ otherQ))) = true := by
        rw [decide_eq_false hnm]
        rfl
      rw [hb]
      simp
    have hle : (selfQ.take (p + 1)).countP (fun q => !(decide (q ∈ otherQ))) ≤
        selfQ.countP (fun q => !(decide (q ∈ otherQ))) := by
      have := countP_take_le (fun q => !(decide (q ∈ otherQ))) selfQ
        (Nat.succ_le_of_lt hp)
      rwa [List.take_length] at this
    have htot := countP_nonmem_eq selfQ otherQ hsub hself hother
    omega

theorem countP_take_exists (pr : ℕ → Bool) :
    ∀ (l : List ℕ) (n : ℕ), n < l.countP pr →
      ∃ p, p < l.length ∧ pr (l.getD p 0) = true ∧ (l.take p).countP pr = n := by
  intro l
  induction l with
  | nil => intro n hn; simp at hn
  | cons x xs ih =>
      intro n hn
      rw [List.countP_cons] at hn
      by_cases hx : pr x
      · rw [if_pos hx] at hn
        cases n with
        | zero => exact ⟨0, Nat.succ_pos _, by simpa using hx, by simp⟩
        | succ n =>
            obtain ⟨p, hp, hpr, hcnt⟩ := ih n (by omega)
            refine ⟨p + 1, Nat.succ_lt_succ hp, by simpa using hpr, ?_⟩
            show ((x :: xs.take p).countP pr) = n + 1
            rw [List.countP_cons, if_pos hx, hcnt]
      · rw [if_neg hx] at hn
        obtain ⟨p, hp, hpr, hcnt⟩ := ih n (by omega)
        refine ⟨p + 1, Nat.succ_lt_succ hp, by simpa using hpr, ?_⟩
        show ((x :: xs.take p).countP pr) = n
        rw [List.countP_cons, if_neg hx, hcnt]
        omega

theorem mergeOrder_surj (selfQ otherQ : List ℕ)
    (hsub : ∀ q ∈ otherQ, q ∈ selfQ) (hself : selfQ.Nodup) (hother : otherQ.Nodup) :
    ∀ n : ℕ, n < selfQ.length - otherQ.length →
      ∃ p, p < selfQ.length ∧ selfQ.getD p 0 ∉ otherQ ∧
        (HamiltonianTerm.mergeOrderAux otherQ selfQ otherQ.length).getD p 0 =
          otherQ.length + n ∧
        listIdx (otherQ.length + n)
          (HamiltonianTerm.mergeOrderAux otherQ selfQ otherQ.length) = p := by
  intro n hn
  have htot := countP_nonmem_eq selfQ otherQ hsub hself hother
  obtain ⟨p, hp, hpr, hcnt⟩ :=
    countP_take_exists (fun q => !(decide (q ∈ otherQ))) selfQ n (by omega)
  have hnm : selfQ.getD p 0 ∉ otherQ := by simpa using hpr
  have hgd : (HamiltonianTerm.mergeOrderAux otherQ selfQ otherQ.length).getD p 0 =
      otherQ.length + n := by
    rw [mergeOrderAux_getD otherQ selfQ otherQ.length p hp, if_neg hnm, hcnt]
  refine ⟨p, hp, hnm, hgd, ?_⟩
  rw [← hgd]
  exact mergeOrder_listIdx_getD selfQ otherQ hself hother p hp

theorem filter_other_arity {R : Type} [CommRing R] (ts : List (HamiltonianTerm R))
    (a b : ℕ) (hab : b ≠ a) :
    (ts.filter (fun t => !(t.len == a))).filter (fun t => t.len == b) =
      ts.filter (fun t => t.len == b) := by
  rw [List.filter_filter]
  refine List.filter_congr ?_
  intro t _
  by_cases h : t.len = b
  · simp [h, beq_eq_false_iff_ne.mpr hab]
  · simp [beq_eq_false_iff_ne.mpr h]

theorem flatMap_filter_drop {R : Type} [CommRing R] (ts : List (HamiltonianTerm R))
    (a : ℕ) :
    ∀ keys : List ℕ, a ∉ keys →
      keys.flatMap (fun b => ts.filter (fun t => t.len == b)) =
        keys.flatMap
          (fun b => (ts.filter (fun t => !(t.len == a))).filter (fun t => t.len == b)) := by
  intro keys
  induction keys with
  | nil => intro _; rfl
  | cons b keys ih =>
      intro ha
      simp only [List.flatMap_cons]
      rw [filter_other_arity ts a b (fun hb => ha (hb ▸ List.mem_cons_self b keys)),
        ih (fun hk => ha (List.mem_cons_of_mem b hk))]

theorem flatMap_arity_filter_perm {R : Type} [CommRing R] :
    ∀ (keys : List ℕ) (ts : List (HamiltonianTerm R)), keys.Nodup →
      (∀ t ∈ ts, t.len ∈ keys) →
      List.Perm (keys.flatMap (fun a => ts.filter (fun t => t.len == a))) ts := by
  intro keys
  induction keys with
  | nil =>
      intro ts _ hcov
      have : ts = [] := List.eq_nil_iff_forall_not_mem.mpr
        (fun t ht => absurd (hcov t ht) (List.not_mem_nil _))
      simp [this]
  | cons a keys ih =>
      intro ts hnd hcov
      have hnd' := (List.nodup_cons.mp hnd).2
      have hna := (List.nodup_cons.mp hnd).1
      have hcov' : ∀ t ∈ ts.filter (fun t => !(t.len == a)), t.len ∈ keys := by
        intro t ht
        have hmem := List.mem_filter.mp ht
        have hne : t.len ≠ a := by
          have := hmem.2
          simpa using this
        rcases List.mem_cons.mp (hcov t hmem.1) with h | h
        · exact absurd h hne
        · exact h
      have hstep := flatMap_filter_drop ts a keys hna
      simp only [List.flatMap_cons]
      rw [hstep]
      refine List.Perm.trans (List.Perm.append_left _
        (ih (ts.filter (fun t => !(t.len == a))) hnd' hcov')) ?_
      exact List.filter_append_perm _ ts

theorem sortedAritiesDesc_nodup {R : Type} [CommRing R]
    (ts : List (HamiltonianTerm R)) : (TermGroup.sortedAritiesDesc ts).Nodup := by
  unfold TermGroup.sortedAritiesDesc
  rw [List.nodup_reverse]
  exact ((sortKeys_perm _).nodup_iff).mpr (List.nodup_dedup _)

theorem sortedAritiesDesc_cover {R : Type} [CommRing R]
    (ts : List (HamiltonianTerm R)) : ∀ t ∈ ts, t.len ∈ TermGroup.sortedAritiesDesc ts := by
  intro t ht
  unfold TermGroup.sortedAritiesDesc
  rw [List.mem_reverse, (sortKeys_perm _).mem_iff, List.mem_dedup]
  exact List.mem_map_of_mem HamiltonianTerm.len ht

theorem processSeq_perm {R : Type} [CommRing R] (ts : List (HamiltonianTerm R)) :
    List.Perm (TermGroup.processSeq ts) ts :=
  flatMap_arity_filter_perm (TermGroup.sortedAritiesDesc ts) ts
    (sortedAritiesDesc_nodup ts) (sortedAritiesDesc_cover ts)

theorem insertTerm_members_perm {R : Type} [CommRing R]
    (t : HamiltonianTerm R) :
    ∀ gs : List (TermGroup R),
      List.Perm ((TermGroup.insertTerm gs t).flatMap TermGroup.members)
        (gs.flatMap TermGroup.members ++ [t]) := by
  intro gs
  induction gs with
  | nil => simp [TermGroup.insertTerm, TermGroup.ofTerm]
  | cons g gs ih =>
      by_cases h : g.can_append t
      · simp only [TermGroup.insertTerm, if_pos h, List.flatMap_cons]
        show List.Perm ((g.members ++ [t]) ++ gs.flatMap TermGroup.members)
          ((g.members ++ gs.flatMap TermGroup.members) ++ [t])
        rw [List.append_assoc, List.append_assoc]
        exact List.Perm.append_left _ List.perm_append_comm
      · simp only [TermGroup.insertTerm, if_neg h, List.flatMap_cons]
        rw [List.append_assoc]
        exact List.Perm.append_left _ ih

theorem foldl_insertTerm_perm {R : Type} [CommRing R] :
    ∀ (l : List (HamiltonianTerm R)) (acc : List (TermGroup R)),
      List.Perm ((l.foldl TermGroup.insertTerm acc).flatMap TermGroup.members)
        (acc.flatMap TermGroup.members ++ l) := by
  intro l
  induction l with
  | nil => intro acc; simp
  | cons t l ih =>
      intro acc
      show List.Perm ((l.foldl TermGroup.insertTerm (TermGroup.insertTerm acc t)).flatMap
        TermGroup.members) _
      refine (ih (TermGroup.insertTerm acc t)).trans ?_
      refine (List.Perm.append_right l (insertTerm_members_perm t acc)).trans ?_
      rw [List.append_assoc]
      exact List.Perm.refl _

theorem groupWF_ofTerm {R : Type} [CommRing R] (t : HamiltonianTerm R) :
    TermGroup.GroupWF (TermGroup.ofTerm t) :=
  ⟨t, [], rfl, fun _ => Iff.rfl, by simp⟩

theorem groupWF_append {R : Type} [CommRing R] (g : TermGroup R)
    (t : HamiltonianTerm R) (hwf : TermGroup.GroupWF g)
    (h : g.can_append t = true) : TermGroup.GroupWF (g.append t) := by
  obtain ⟨s, rest, hm, htq, htail⟩ := hwf
  have hall : ∀ x ∈ t.target_qubits, x ∈ g.target_qubits := by
    intro x hx
    exact of_decide_eq_true (List.all_eq_true.mp h x hx)
  refine ⟨s, rest ++ [t], ?_, ?_, ?_⟩
  · show g.members ++ [t] = s :: (rest ++ [t])
    rw [hm, List.cons_append]
  · intro q
    show q ∈ g.target_qubits ∪ t.target_qubits ↔ q ∈ s.target_qubits
    rw [List.mem_union_iff]
    constructor
    · rintro (hq | hq)
      · exact (htq q).mp hq
      · exact (htq q).mp (hall q hq)
    · exact fun hq => Or.inl ((htq q).mpr hq)
  · intro t' ht'
    rcases List.mem_append.mp ht' with h' | h'
    · exact htail t' h'
    · have : t' = t := List.mem_singleton.mp h'
      subst this
      exact fun q hq => (htq q).mp (hall q hq)

theorem insertTerm_WF {R : Type} [CommRing R] (t : HamiltonianTerm R) :
    ∀ gs : List (TermGroup R), (∀ g ∈ gs, TermGroup.GroupWF g) →
      ∀ g ∈ TermGroup.insertTerm gs t, TermGroup.GroupWF g := by
  intro gs
  induction gs with
  | nil =>
      intro _ g hg
      have : g = TermGroup.ofTerm t := by simpa [TermGroup.insertTerm] using hg
      exact this ▸ groupWF_ofTerm t
  | cons g0 gs ih =>
      intro hall g hg
      by_cases hc : g0.can_append t
      · simp only [TermGroup.insertTerm, if_pos hc] at hg
        rcases List.mem_cons.mp hg with h | h
        · exact h ▸ groupWF_append g0 t (hall g0 (List.mem_cons_self g0 gs)) hc
        · exact hall g (List.mem_cons_of_mem g0 h)
      · simp only [TermGroup.insertTerm, if_neg hc] at hg
        rcases List.mem_cons.mp hg with h | h
        · exact h ▸ hall g0 (List.mem_cons_self g0 gs)
        · exact ih (fun g' hg' => hall g' (List.mem_cons_of_mem g0 hg')) g h

theorem foldl_insertTerm_WF {R : Type} [CommRing R] :
    ∀ (l : List (HamiltonianTerm R)) (acc : List (TermGroup R)),
      (∀ g ∈ acc, TermGroup.GroupWF g) →
      ∀ g ∈ l.foldl TermGroup.insertTerm acc, TermGroup.GroupWF g := by
  intro l
  induction l with
  | nil => intro acc h; exact h
  | cons t l ih =>
      intro acc h
      exact ih (TermGroup.insertTerm acc t) (insertTerm_WF t acc h)

theorem from_terms_WF {R : Type} [CommRing R] (ts : List (HamiltonianTerm R)) :
    ∀ g ∈ TermGroup.from_terms ts, TermGroup.GroupWF g :=
  foldl_insertTerm_WF (TermGroup.processSeq ts) [] (by intro g hg; simp at hg)

theorem applyCoeff_target_qubits {R : Type} [CommRing R]
    (coefficients : Option ℕ → Option R) (t : HamiltonianTerm R) :
    (TermGroup.applyCoeff coefficients t).target_qubits = t.target_qubits := by
  unfold TermGroup.applyCoeff
  cases coefficients t.hamiltonian <;> rfl

theorem foldl_merge_target_qubits {R : Type} [CommRing R]
    (coefficients : Option ℕ → Option R) :
    ∀ (l : List (HamiltonianTerm R)) (acc : HamiltonianTerm R),
      (l.foldl (fun merged t => merged.merge (TermGroup.applyCoeff coefficients t))
        acc).target_qubits = acc.target_qubits := by
  intro l
  induction l with
  | nil => intro acc; rfl
  | cons t l ih => intro acc; exact ih _

theorem merge_embed_core {R : Type} [CommRing R] (selfQ otherQ : List ℕ) (B : QMatrix R)
    (hself : selfQ.Nodup) (hother : otherQ.Nodup)
    (hsub : ∀ q ∈ otherQ, q ∈ selfQ) (hloc : readsOnly otherQ.length B)
    (r c : ℕ → Bool) :
    transposeLegs (HamiltonianTerm.mergeOrderAux otherQ selfQ otherQ.length)
      (kron otherQ.length B (eyeLegs (selfQ.length - otherQ.length))) r c =
    specEmbed selfQ otherQ B r c := by
  unfold transposeLegs kron specEmbed eyeLegs shiftLegs
  congr 1
  · exact hloc _ _ _ _
      (fun n hn => congrArg r (mergeOrder_listIdx_small selfQ otherQ hsub hself hother n hn))
      (fun n hn => congrArg c (mergeOrder_listIdx_small selfQ otherQ hsub hself hother n hn))
  · refine if_congr ?_ rfl rfl
    constructor
    · intro h1 p hp
      by_cases hmem : selfQ.getD p 0 ∈ otherQ
      · exact Or.inl hmem
      · obtain ⟨hgd, hlt, hidx⟩ := mergeOrder_nonmem selfQ otherQ hsub hself hother p hp hmem
        refine Or.inr ?_
        set cnt := (selfQ.take p).countP (fun q => !(decide (q ∈ otherQ))) with hcntdef
        have hq : listIdx (cnt + otherQ.length)
            (HamiltonianTerm.mergeOrderAux otherQ selfQ otherQ.length) = p := by
          rw [Nat.add_comm cnt otherQ.length, ← hgd]
          exact hidx
        have hstep2 : r (listIdx (cnt + otherQ.length)
            (HamiltonianTerm.mergeOrderAux otherQ selfQ otherQ.length)) =
          c (listIdx (cnt + otherQ.length)
            (HamiltonianTerm.mergeOrderAux otherQ selfQ otherQ.length)) := h1 cnt hlt
        rw [hq] at hstep2
        exact hstep2
    · intro h2 n hn
      obtain ⟨p, hp, hnm, hgd, hidx⟩ := mergeOrder_surj selfQ otherQ hsub hself hother n hn
      rw [Nat.add_comm n otherQ.length]
      show r (listIdx (otherQ.length + n)
          (HamiltonianTerm.mergeOrderAux otherQ selfQ otherQ.length)) =
        c (listIdx (otherQ.length + n)
          (HamiltonianTerm.mergeOrderAux otherQ selfQ otherQ.length))
      rw [hidx]
      rcases h2 p hp with hmem | heq
      · exact absurd hmem hnm
      · exact heq

theorem xMatQ_readsOnly : readsOnly 1 xMatQ := by
  intro r c r' c' h1 h2
  show xMat2Z (r 0) (c 0) = xMat2Z (r' 0) (c' 0)
  rw [h1 0 Nat.one_pos, h2 0 Nat.one_pos]

/-!  ## Claim theorems -/

/-- C1: for terms `A`, `B` with distinct qubits and `B`'s qubits a subset
of `A`'s (and `B.matrix` a genuine `2^m × 2^m` array), `A.merge(B)`
returns a new term over `A`'s target qubits whose matrix is `A.matrix`
plus the embedding of `B.matrix` into the full space of `A`'s qubits
(`B` tensored with identity on the uncovered qubits, axes aligned to
`A`'s qubit order); in particular for `A = Z⊗Z` over `(0, 1)` and
`B = X` over `(0,)` the merged matrix is `kron(Z, Z) + kron(X, I)`. -/
theorem merge_matches_spec :
    (∀ (R : Type) [CommRing R] (A B : HamiltonianTerm R),
      A.target_qubits.Nodup → B.target_qubits.Nodup →
      (∀ q ∈ B.target_qubits, q ∈ A.target_qubits) →
      readsOnly B.target_qubits.length B.matrix →
      (A.merge B).target_qubits = A.target_qubits ∧
      ∀ r c : ℕ → Bool, (A.merge B).matrix r c =
        A.matrix r c + specEmbed A.target_qubits B.target_qubits B.matrix r c) ∧
    (∀ r c : ℕ → Bool, (termA.merge termB).matrix r c = zzMat r c + xiMat r c) := by
  have main : ∀ (R : Type) [CommRing R] (A B : HamiltonianTerm R),
      A.target_qubits.Nodup → B.target_qubits.Nodup →
      (∀ q ∈ B.target_qubits, q ∈ A.target_qubits) →
      readsOnly B.target_qubits.length B.matrix →
      (A.merge B).target_qubits = A.target_qubits ∧
      ∀ r c : ℕ → Bool, (A.merge B).matrix r c =
        A.matrix r c + specEmbed A.target_qubits B.target_qubits B.matrix r c := by
    intro R _ A B hA hB hsub hloc
    refine ⟨rfl, fun r c => ?_⟩
    show A.matrix r c +
        transposeLegs (HamiltonianTerm.mergeOrderAux B.target_qubits A.target_qubits
            B.target_qubits.length)
          (kron B.target_qubits.length B.matrix
            (eyeLegs (A.target_qubits.length - B.target_qubits.length))) r c = _
    rw [merge_embed_core A.target_qubits B.target_qubits B.matrix hA hB hsub hloc r c]
  refine ⟨main, ?_⟩
  intro r c
  have h := (main ℤ termA termB (by decide) (by decide) (by decide) xMatQ_readsOnly).2 r c
  rw [h]
  show zzMat r c + specEmbed [0, 1] [0] xMatQ r c = zzMat r c + xiMat r c
  have hspec : specEmbed (R := ℤ) [0, 1] [0] xMatQ r c = xiMat r c := by
    unfold specEmbed xiMat xMatQ
    congr 1
    refine if_congr ?_ rfl rfl
    constructor
    · intro h1
      have h2 := h1 1 (by decide)
      simpa using h2
    · intro h1 p hp
      have hp2 : p < 2 := by simpa using hp
      interval_cases p
      · exact Or.inl (by simp)
      · exact Or.inr h1
  rw [hspec]

/-- C2: `TermGroup.from_terms` places every input term into exactly one
output group (the groups' member lists are, together, a permutation of
the input list), and a term is only ever appended to a group whose
qubit support already contains the term's support at the moment of the
append: every group starts with its seed, the group's support is (as a
set) the seed's support throughout, and every later member's support is
contained in it. -/
theorem from_terms_partition {R : Type} [CommRing R] (ts : List (HamiltonianTerm R)) :
    List.Perm ((TermGroup.from_terms ts).flatMap TermGroup.members) ts ∧
    ∀ g ∈ TermGroup.from_terms ts, TermGroup.GroupWF g := by
  constructor
  · refine (foldl_insertTerm_perm (TermGroup.processSeq ts) []).trans ?_
    simpa using processSeq_perm ts
  · exact from_terms_WF ts

/-- C7: every group produced by `from_terms` has its qubit set equal (as
a set) to the support of its seed member, every later member's support
is contained in it, and consequently each `merge` performed by the
`to_term` fold merges into an accumulator whose `target_qubits` are
exactly the seed's, so the subset precondition of `merge` holds at
every step (scaling by a coefficient override does not change any
support). -/
theorem to_term_merge_preconditions {R : Type} [CommRing R]
    (ts : List (HamiltonianTerm R)) (coefficients : Option ℕ → Option R) :
    ∀ g ∈ TermGroup.from_terms ts, ∃ s rest, g.members = s :: rest ∧
      (∀ q, q ∈ g.target_qubits ↔ q ∈ s.target_qubits) ∧
      (∀ t ∈ rest, ∀ q ∈ t.target_qubits, q ∈ s.target_qubits) ∧
      (g.to_term coefficients).target_qubits = s.target_qubits ∧
      (∀ j, j < rest.length →
        ((rest.take j).foldl
            (fun merged t => merged.merge (TermGroup.applyCoeff coefficients t))
            (TermGroup.applyCoeff coefficients s)).target_qubits = s.target_qubits ∧
        (TermGroup.applyCoeff coefficients (rest.getD j s)).target_qubits ⊆
          ((rest.take j).foldl
            (fun merged t => merged.merge (TermGroup.applyCoeff coefficients t))
            (TermGroup.applyCoeff coefficients s)).target_qubits) := by
  intro g hg
  obtain ⟨s, rest, hm, htq, htail⟩ := from_terms_WF ts g hg
  refine ⟨s, rest, hm, htq, htail, ?_, ?_⟩
  · show (TermGroup.to_term g coefficients).target_qubits = s.target_qubits
    unfold TermGroup.to_term
    rw [hm]
    rw [foldl_merge_target_qubits, applyCoeff_target_qubits]
  · intro j hj
    have hacc : ((rest.take j).foldl
        (fun merged t => merged.merge (TermGroup.applyCoeff coefficients t))
        (TermGroup.applyCoeff coefficients s)).target_qubits = s.target_qubits := by
      rw [foldl_merge_target_qubits, applyCoeff_target_qubits]
    refine ⟨hacc, ?_⟩
    rw [hacc, applyCoeff_target_qubits]
    intro q hq
    have hmem : rest.getD j s ∈ rest := by
      rw [List.getD_eq_getElem rest s hj]
      exact List.getElem_mem hj
    exact htail _ hmem q hq

/-- C6: `TermGroup.from_terms` processes arity buckets from largest to
smallest regardless of the input order: given the 1-qubit term over
`(0,)` first and the 2-qubit term over `(0, 1)` second, the result is a
single group whose members are the 2-qubit term followed by the 1-qubit
term, not two singleton groups. -/
theorem from_terms_arity_reorder :
    (TermGroup.from_terms [termB, termA]).length = 1 ∧
    (TermGroup.from_terms [termB, termA]).map
      (fun g => g.members.map HamiltonianTerm.target_qubits) = [[[0, 1], [0]]] :=
  ⟨rfl, rfl⟩

/-- C8: `TermGroup.append` appends the term at the end of the member
sequence, replaces `target_qubits` with its union with the term's
support (a membership no-op when `can_append` held), resets the cached
merged term, so that the next read of `term` recomputes the fold over
the extended member list; no other field exists or changes. -/
theorem termgroup_append_frame {R : Type} [CommRing R]
    (g : TermGroup R) (t : HamiltonianTerm R) :
    (g.append t).members = g.members ++ [t] ∧
    (∀ q, q ∈ (g.append t).target_qubits ↔ (q ∈ g.target_qubits ∨ q ∈ t.target_qubits)) ∧
    (g.can_append t = true →
      ∀ q, q ∈ (g.append t).target_qubits ↔ q ∈ g.target_qubits) ∧
    (g.append t)._term = none ∧
    (g.append t).term = (g.append t).to_term (fun _ => none) := by
  refine ⟨rfl, ?_, ?_, rfl, rfl⟩
  · intro q
    simp [TermGroup.append, List.mem_union_iff]
  · intro h q
    have hall : ∀ x ∈ t.target_qubits, x ∈ g.target_qubits := by
      intro x hx
      have := List.all_eq_true.mp h x hx
      exact of_decide_eq_true this
    simp only [TermGroup.append, List.mem_union_iff]
    constructor
    · rintro (hq | hq)
      · exact hq
      · exact hall q hq
    · exact Or.inl

/-- C9 (counterexample): the claim says the constructor raises for every
argument that is neither a numeric scalar nor a backend tensor, but the
code also accepts `None`: `HamiltonianTerm(None, ...)` succeeds. -/
theorem term_init_none_accepted :
    (hamiltonianTermInit (R := ℤ) MatrixArg.noneArg []).isOk = true ∧
    MatrixArg.isNumericScalar (MatrixArg.noneArg : MatrixArg ℤ) = false ∧
    MatrixArg.isTensorType (MatrixArg.noneArg : MatrixArg ℤ) = false := by
  exact ⟨rfl, rfl, rfl⟩

/-- C9 (amended): constructing a base Term succeeds exactly when the
matrix argument is `None`, a numeric scalar, or a backend tensor, and
raises the type error otherwise. -/
theorem term_init_type_check {R : Type} (arg : MatrixArg R) (q : List ℕ) :
    (hamiltonianTermInit arg q).isOk = true ↔
      (arg = MatrixArg.noneArg ∨ arg.isNumericScalar = true ∨ arg.isTensorType = true) := by
  cases arg <;>
    simp [hamiltonianTermInit, matrixArgAccepted, MatrixArg.isNumericScalar,
      MatrixArg.isTensorType, Except.isOk, Except.toBool]

/-- C10: `SymbolicTerm.from_factors(c, 1)` returns a pure scalar term:
empty qubit support, empty factors and matrix map, no cached state, and
coefficient `complex(c)` (the identity coercion on `ℂ`). -/
theorem from_factors_identity (c : ℂ) :
    (SymbolicTerm.from_factors c FactorsArg.one).coefficient = c ∧
    (SymbolicTerm.from_factors c FactorsArg.one).factors = [] ∧
    (SymbolicTerm.from_factors c FactorsArg.one).matrix_map = [] ∧
    (SymbolicTerm.from_factors c FactorsArg.one).target_qubits = [] ∧
    (SymbolicTerm.from_factors c FactorsArg.one)._matrix = none :=
  ⟨rfl, rfl, rfl, rfl, rfl⟩

/-- C5: repeated factors on one qubit are composed, not deduplicated:
both `X(0) * X(0)` and `X(0) ** 2` record `[X, X]` under qubit 0 in the
matrix map, the per-qubit contribution is the ordered product
`X @ X = I`, and that product differs from a single `X`. -/
theorem repeated_factor_composition :
    symT5a.matrix_map = [(0, [xMat2C, xMat2C])] ∧
    symT5b.matrix_map = [(0, [xMat2C, xMat2C])] ∧
    (∀ b b' : Bool, matricesProduct [xMat2C, xMat2C] b b' = mat2Id b b') ∧
    (∀ r c : ℕ → Bool, symT5a.matrix r c = mat2Id (r 0) (c 0)) ∧
    matricesProduct [xMat2C, xMat2C] false false ≠ xMat2C false false := by
  refine ⟨rfl, rfl, mat2Mul_xx, ?_, ?_⟩
  · intro r c
    show (1 : ℂ) * mat2Mul xMat2C xMat2C (r 0) (c 0) = mat2Id (r 0) (c 0)
    rw [mat2Mul_xx (r 0) (c 0), one_mul]
  · show mat2Mul xMat2C xMat2C false false ≠ xMat2C false false
    simp [mat2Mul, xMat2C]

/-- C4 (code behaviour at the failing input): for the base
`HamiltonianTerm`, scalar multiplication scales the matrix and keeps
the qubits; but `SymbolicTerm.__mul__` copies a materialized `_matrix`
cache over without scaling it, so once the matrix has been read,
`(2 * t).matrix` returns the stale unscaled matrix instead of
`2 * t.matrix` (the unmaterialized term still scales correctly). -/
theorem symbolic_mul_stale_cache :
    (∀ (R : Type) [CommRing R] (t : HamiltonianTerm R) (x : R),
      (t.mul x).target_qubits = t.target_qubits ∧
      ∀ r c, (t.mul x).matrix r c = x * t.matrix r c) ∧
    (symT4.materializeMatrix.mul 2).matrix (fun _ => false) (fun _ => true) =
      symT4.materializeMatrix.matrix (fun _ => false) (fun _ => true) ∧
    (symT4.materializeMatrix.mul 2).matrix (fun _ => false) (fun _ => true) ≠
      2 * symT4.materializeMatrix.matrix (fun _ => false) (fun _ => true) ∧
    (symT4.mul 2).matrix (fun _ => false) (fun _ => true) =
      2 * symT4.matrix (fun _ => false) (fun _ => true) := by
  refine ⟨fun R _ t x => ⟨rfl, fun r c => rfl⟩, rfl, ?_, ?_⟩
  · show (1 : ℂ) * xMat2C false true ≠ 2 * ((1 : ℂ) * xMat2C false true)
    simp [xMat2C]
  · show ((1 : ℂ) * 2) * xMat2C false true = 2 * ((1 : ℂ) * xMat2C false true)
    ring

/-- C3: the `matrix` property of a symbolic term (with no cached matrix,
and no degenerate empty per-qubit list) equals the spec's Kronecker
chain: the coefficient leftmost, then for each qubit in ascending order
the ordered left-to-right product of the matrices recorded for it; in
particular `2 * X(0) * X(1)` has matrix `2 * kron(X, X)`. -/
theorem symbolic_matrix_spec :
    (∀ t : SymbolicTerm, t._matrix = none → (∀ p ∈ t.matrix_map, p.2 ≠ []) →
      ∀ r c, t.matrix r c = specSymbolicMatrix t r c) ∧
    (∀ r c : ℕ → Bool,
      symT3.matrix r c = 2 * (xMat2C (r 0) (c 0) * xMat2C (r 1) (c 1))) := by
  constructor
  · intro t hm hne r c
    have h1 : t.matrix r c = t.computeMatrix r c := by
      simp [SymbolicTerm.matrix, hm]
    rw [h1]
    unfold SymbolicTerm.computeMatrix
    rw [symMatrixGo_eq_chainEntry]
    unfold specSymbolicMatrix SymbolicTerm.scalarMat
    congr 1
    refine chainEntry_map_congr _ _ t.target_qubits 0 r c ?_
    intro q hq
    refine (specOrderedProd_eq_matricesProduct _ ?_).symm
    refine lookupMM_ne_nil t.matrix_map q hne ?_
    exact ((sortKeys_perm (t.matrix_map.map Prod.fst)).mem_iff).mp hq
  · intro r c
    show ((2 : ℂ) * xMat2C (r 0) (c 0)) * xMat2C (r 1) (c 1) =
      2 * (xMat2C (r 0) (c 0) * xMat2C (r 1) (c 1))
    ring

/-- Witness for C1: the hypotheses of the merge theorem hold at the
concrete pair `A = Z⊗Z` over `(0, 1)`, `B = X` over `(0,)`, and the
theorem yields the merged matrix there. -/
theorem merge_matches_spec_witness :
    List.Nodup termA.target_qubits ∧ List.Nodup termB.target_qubits ∧
    (∀ q ∈ termB.target_qubits, q ∈ termA.target_qubits) ∧
    readsOnly termB.target_qubits.length termB.matrix ∧
    ((termA.merge termB).target_qubits = termA.target_qubits ∧
      ∀ r c : ℕ → Bool, (termA.merge termB).matrix r c =
        termA.matrix r c +
          specEmbed termA.target_qubits termB.target_qubits termB.matrix r c) :=
  ⟨by decide, by decide, by decide, xMatQ_readsOnly,
    merge_matches_spec.1 ℤ termA termB (by decide) (by decide) (by decide) xMatQ_readsOnly⟩

/-- Witness for C2: the grouping theorem evaluated at the concrete term
list `[B, A]`. -/
theorem from_terms_partition_witness :
    List.Perm ((TermGroup.from_terms [termB, termA]).flatMap TermGroup.members)
      [termB, termA] ∧
    ∀ g ∈ TermGroup.from_terms [termB, termA], TermGroup.GroupWF g :=
  from_terms_partition [termB, termA]

/-- Witness for C3: the hypotheses hold at the concrete term
`2 * X(0) * X(1)` (freshly parsed, so no cached matrix, and no empty
per-qubit list), and the theorem gives its matrix there. -/
theorem symbolic_matrix_spec_witness :
    symT3._matrix = none ∧ (∀ p ∈ symT3.matrix_map, p.2 ≠ []) ∧
    ∀ r c : ℕ → Bool, symT3.matrix r c = specSymbolicMatrix symT3 r c := by
  have hne : ∀ p ∈ symT3.matrix_map, p.2 ≠ [] := by
    intro p hp
    have hp2 : p ∈ [((0 : ℕ), [xMat2C]), (1, [xMat2C])] := hp
    rcases List.mem_cons.mp hp2 with h | h
    · rw [h]
      exact List.cons_ne_nil _ _
    · rw [List.mem_singleton.mp h]
      exact List.cons_ne_nil _ _
  exact ⟨rfl, hne, symbolic_matrix_spec.1 symT3 rfl hne⟩

/-- Witness for C7: the fold theorem evaluated at the concrete term list
`[B, A]` and the empty coefficient map, for the single group the
clustering produces. -/
theorem to_term_merge_preconditions_witness :
    ∃ s rest, ((TermGroup.ofTerm termA).append termB).members = s :: rest ∧
      (∀ q, q ∈ ((TermGroup.ofTerm termA).append termB).target_qubits ↔
        q ∈ s.target_qubits) ∧
      (∀ t ∈ rest, ∀ q ∈ t.target_qubits, q ∈ s.target_qubits) ∧
      (((TermGroup.ofTerm termA).append termB).to_term
          (fun _ => none)).target_qubits = s.target_qubits ∧
      (∀ j, j < rest.length →
        ((rest.take j).foldl
            (fun merged t => merged.merge (TermGroup.applyCoeff (fun _ => none) t))
            (TermGroup.applyCoeff (fun _ => none) s)).target_qubits =
          s.target_qubits ∧
        (TermGroup.applyCoeff (fun _ => none) (rest.getD j s)).target_qubits ⊆
          ((rest.take j).foldl
            (fun merged t => merged.merge (TermGroup.applyCoeff (fun _ => none) t))
            (TermGroup.applyCoeff (fun _ => none) s)).target_qubits) :=
  to_term_merge_preconditions [termB, termA] (fun _ => none)
    ((TermGroup.ofTerm termA).append termB) (List.Mem.head _)
